import Mathlib

/-!
Shallow embedding of the dividend-scalping backtest engine of
`src/strategy.py` (`calculate_scalping_strategy`).

Modelling choices:
* A trading date is a `Nat` (a civil day number).  All dates inside the
  core computation are timezone-naive, exactly as after the
  `tz_localize(None)` normalization performed by the engine.
* A pandas `Timestamp` as it arrives from the provider may carry a
  timezone annotation; that is modelled by `TZDate` (a day plus an
  optional timezone offset).  `runEngine` models the whole body of
  `calculate_scalping_strategy` after the fetch, including the in-place
  index reassignment `series.index = series.index.tz_localize(None)`:
  it returns the final states of both series next to the result list.
* Close prices and dividend amounts are `ℚ` (exact arithmetic standing
  for the script's float arithmetic, which applies the same formulas).
* `history` is the price series as an ordered list of
  (date, close) pairs; `dividends` is the list of (ex-date, amount)
  pairs in series order, as iterated by `dividends.items()`.
* `get_loc` models `history.index.get_loc(date)` together with the
  `date not in history.index` test: the position of the first entry
  carrying the given date, `none` when absent.
* `closeAt` models the label lookup `history.loc[d, "Close"]`: the
  close price of the first entry carrying date `d`.
-/

namespace DividendStrategy

/-- A provider timestamp: a civil day plus an optional timezone offset
(minutes east of UTC); `tz = none` is a timezone-naive timestamp. -/
structure TZDate where
  day : Nat
  tz : Option Int
deriving DecidableEq, Repr

/-- One output row of the engine, with the fields of the dict built at
`strategy.py` lines 94-104.  `daysHeld` is the 1-based holding-period
index (column `Days Held After Ex-Div`). -/
structure TradeRecord where
  exDate : Nat
  dividend : ℚ
  buyDate : Nat
  buyPrice : ℚ
  daysHeld : Nat
  sellDate : Nat
  sellPrice : ℚ
  netGainPct : ℚ
  divGainPct : ℚ
deriving DecidableEq, Repr

/-- Positional date access `history.index[i]` (junk value `0` out of
range; every use is guarded by an index bound). -/
def dateAt (history : List (Nat × ℚ)) (i : Nat) : Nat :=
  (history.getD i (0, 0)).1

/-- Label lookup `history.loc[d, "Close"]`: close of the first entry
whose date is `d` (junk value `0` when absent; every use looks up a
date taken from the series itself). -/
def closeAt (d : Nat) : List (Nat × ℚ) → ℚ
  | [] => 0
  | p :: rest => if p.1 = d then p.2 else closeAt d rest

/-- `history.index.get_loc(d)` combined with the membership test
`d not in history.index`: position of the first entry dated `d`. -/
def get_loc (d : Nat) : List (Nat × ℚ) → Option Nat
  | [] => none
  | p :: rest => if p.1 = d then some 0 else (get_loc d rest).map (fun i => i + 1)

/-- The record appended at `strategy.py` lines 94-104 for holding
period `n + 1`: sell at position `exIdx + n`, sell price looked up by
label, percentages per lines 91-92. -/
def mkRecord (history : List (Nat × ℚ)) (exDate : Nat) (divAmount : ℚ)
    (buyDate : Nat) (buyPrice : ℚ) (exIdx n : Nat) : TradeRecord :=
  let sellDate := dateAt history (exIdx + n)
  let sellPrice := closeAt sellDate history
  { exDate := exDate
    dividend := divAmount
    buyDate := buyDate
    buyPrice := buyPrice
    daysHeld := n + 1
    sellDate := sellDate
    sellPrice := sellPrice
    netGainPct := ((sellPrice + divAmount - buyPrice) / buyPrice) * 100
    divGainPct := (divAmount / buyPrice) * 100 }

/-- The inner loop `for n in range(0, max_days)` of `strategy.py`
lines 78-104, started at counter `n` with `fuel` iterations left; the
`break` at line 82 is the `else` branch. -/
def sellFrom (history : List (Nat × ℚ)) (exDate : Nat) (divAmount : ℚ)
    (buyDate : Nat) (buyPrice : ℚ) (exIdx : Nat) : Nat → Nat → List TradeRecord
  | 0, _ => []
  | fuel + 1, n =>
    if exIdx + n < history.length then
      mkRecord history exDate divAmount buyDate buyPrice exIdx n ::
        sellFrom history exDate divAmount buyDate buyPrice exIdx fuel (n + 1)
    else []

/-- One iteration of the outer loop `for date, div_amount in
dividends.items()` (`strategy.py` lines 42-104): skip when the ex-date
is absent from the index (line 49) or has no preceding session
(line 57); otherwise buy at the previous session's close and run the
sell loop. -/
def processEvent (history : List (Nat × ℚ)) (maxDays : Nat) (ev : Nat × ℚ) :
    List TradeRecord :=
  match get_loc ev.1 history with
  | none => []
  | some exIdx =>
    if exIdx < 1 then []
    else
      sellFrom history ev.1 ev.2 (dateAt history (exIdx - 1))
        (closeAt (dateAt history (exIdx - 1)) history) exIdx maxDays 0

/-- The outer loop over all dividend events, accumulating `results` in
series order. -/
def processAll (history : List (Nat × ℚ)) (maxDays : Nat) :
    List (Nat × ℚ) → List TradeRecord
  | [] => []
  | ev :: rest => processEvent history maxDays ev ++ processAll history maxDays rest

/-- The engine's computation on already-normalized (timezone-naive)
series: the empty-input early exit of `strategy.py` lines 31-32
followed by the event loop. -/
def calculate_scalping_strategy (history dividends : List (Nat × ℚ))
    (maxDays : Nat) : List TradeRecord :=
  if history.isEmpty || dividends.isEmpty then []
  else processAll history maxDays dividends

/-- `series.index.tz_localize(None)`: drop the timezone annotation of
every index entry, keeping the wall-clock day. -/
def setNaive (s : List (TZDate × ℚ)) : List (TZDate × ℚ) :=
  s.map (fun p => (⟨p.1.day, none⟩, p.2))

/-- View a series through its naive day numbers, as the core
computation sees it after normalization. -/
def toNaive (s : List (TZDate × ℚ)) : List (Nat × ℚ) :=
  s.map (fun p => (p.1.day, p.2))

/-- The whole body of `calculate_scalping_strategy` after `fetch_data`:
`none` stands for a failed fetch (line 31's `is None` test), the empty
check precedes normalization, and the in-place index reassignments of
lines 37-38 are modelled by returning the final states of both series
next to the trade list. -/
def runEngine (history? dividends? : Option (List (TZDate × ℚ))) (maxDays : Nat) :
    Option (List (TZDate × ℚ)) × Option (List (TZDate × ℚ)) × List TradeRecord :=
  match history?, dividends? with
  | some history, some dividends =>
    if history.isEmpty || dividends.isEmpty then (some history, some dividends, [])
    else
      (some (setNaive history), some (setNaive dividends),
        calculate_scalping_strategy (toNaive history) (toNaive dividends) maxDays)
  | h?, d? => (h?, d?, [])

/-- The concrete scenario of spec §8: four trading sessions and one
dividend event on the third session. -/
def exHist : List (Nat × ℚ) := [(1, 100), (2, 102), (3, 101), (4, 105)]

/-- The dividend series of the concrete scenario: 1.0 paid with ex-date
on day 3. -/
def exDivs : List (Nat × ℚ) := [(3, 1)]

/-- First record of the concrete scenario (sold on the ex-dividend
session). -/
def exRec1 : TradeRecord := mkRecord exHist 3 1 2 102 2 0

/-- Second record of the concrete scenario (sold one session after the
ex-dividend session). -/
def exRec2 : TradeRecord := mkRecord exHist 3 1 2 102 2 1

/-- A timezone-naive price series, for the unchanged-inputs witness. -/
def naiveHist : List (TZDate × ℚ) :=
  [(⟨1, none⟩, 100), (⟨2, none⟩, 102), (⟨3, none⟩, 101)]

/-- A timezone-naive dividend series. -/
def naiveDivs : List (TZDate × ℚ) := [(⟨2, none⟩, 1)]

/-- A timezone-aware price series (UTC-annotated), used to exhibit the
in-place normalization. -/
def tzHist : List (TZDate × ℚ) :=
  [(⟨1, some 0⟩, 100), (⟨2, some 0⟩, 102), (⟨3, some 0⟩, 101)]

/-- A timezone-aware dividend series. -/
def tzDivs : List (TZDate × ℚ) := [(⟨2, some 0⟩, 1)]

/-- An event whose ex-date is absent from an empty price series is
skipped. -/
theorem processEvent_nil (maxDays : Nat) (ev : Nat × ℚ) :
    processEvent [] maxDays ev = [] := rfl

/-- The event loop over an empty price series emits nothing. -/
theorem processAll_nil_history (maxDays : Nat) :
    ∀ dividends : List (Nat × ℚ), processAll [] maxDays dividends = []
  | [] => rfl
  | ev :: rest => by
    simp [processAll, processEvent_nil, processAll_nil_history maxDays rest]

/-- The early-exit guard is redundant with the loop itself: the engine
computation is the event loop on every input. -/
theorem calculate_eq_processAll (history dividends : List (Nat × ℚ)) (maxDays : Nat) :
    calculate_scalping_strategy history dividends maxDays =
      processAll history maxDays dividends := by
  cases history with
  | nil => simp [calculate_scalping_strategy, processAll_nil_history]
  | cons p t =>
    cases dividends with
    | nil => simp [calculate_scalping_strategy, processAll]
    | cons e r => simp [calculate_scalping_strategy]

/-- The sell loop started at counter `n` with `fuel` iterations left
produces exactly the records for the consecutive positions that fit in
the series, as a mapped interval. -/
theorem sellFrom_eq_range (history : List (Nat × ℚ)) (exDate : Nat) (divAmount : ℚ)
    (buyDate : Nat) (buyPrice : ℚ) (exIdx : Nat) :
    ∀ fuel n, sellFrom history exDate divAmount buyDate buyPrice exIdx fuel n =
      (List.range' n (min fuel (history.length - (exIdx + n)))).map
        (mkRecord history exDate divAmount buyDate buyPrice exIdx) := by
  intro fuel
  induction fuel with
  | zero => intro n; simp [sellFrom]
  | succ fuel ih =>
    intro n
    by_cases hlt : exIdx + n < history.length
    · have hmin : min (fuel + 1) (history.length - (exIdx + n)) =
          min fuel (history.length - (exIdx + (n + 1))) + 1 := by omega
      simp only [sellFrom]
      rw [if_pos hlt, ih (n + 1), hmin, List.range'_succ, List.map_cons]
    · have h0 : history.length - (exIdx + n) = 0 := by omega
      simp only [sellFrom]
      rw [if_neg hlt, h0]
      simp

/-- A fully aligned event (ex-date found at a positive position)
produces the mapped interval of records starting at holding period 1. -/
theorem processEvent_eq (history : List (Nat × ℚ)) (maxDays : Nat) (ev : Nat × ℚ)
    (exIdx : Nat) (hloc : get_loc ev.1 history = some exIdx) (h1 : 1 ≤ exIdx) :
    processEvent history maxDays ev =
      (List.range' 0 (min maxDays (history.length - exIdx))).map
        (mkRecord history ev.1 ev.2 (dateAt history (exIdx - 1))
          (closeAt (dateAt history (exIdx - 1)) history) exIdx) := by
  simp only [processEvent, hloc]
  rw [if_neg (by omega : ¬ exIdx < 1), sellFrom_eq_range]
  simp

/-- `get_loc` fails exactly on dates carried by no series entry. -/
theorem get_loc_none_iff (d : Nat) :
    ∀ history : List (Nat × ℚ), get_loc d history = none ↔ ∀ p ∈ history, p.1 ≠ d
  | [] => by simp [get_loc]
  | p :: rest => by
    by_cases hp : p.1 = d
    · simp [get_loc, hp]
    · simp [get_loc, hp, Option.map_eq_none', get_loc_none_iff d rest]

/-- A found position is a valid index of the series. -/
theorem get_loc_lt_length (d : Nat) :
    ∀ (history : List (Nat × ℚ)) (i : Nat), get_loc d history = some i → i < history.length
  | [], i => by simp [get_loc]
  | p :: rest, i => by
    by_cases hp : p.1 = d
    · simp [get_loc, hp]
      omega
    · simp only [get_loc, if_neg hp, Option.map_eq_some', List.length_cons]
      rintro ⟨j, hj, rfl⟩
      have := get_loc_lt_length d rest j hj
      omega

/-- The date at a found position is the looked-up date. -/
theorem get_loc_date (d : Nat) :
    ∀ (history : List (Nat × ℚ)) (i : Nat), get_loc d history = some i → dateAt history i = d
  | [], i => by simp [get_loc]
  | p :: rest, i => by
    by_cases hp : p.1 = d
    · simp only [get_loc, if_pos hp, Option.some.injEq]
      rintro rfl
      exact hp
    · simp only [get_loc, if_neg hp, Option.map_eq_some']
      rintro ⟨j, hj, rfl⟩
      exact get_loc_date d rest j hj

/-- Label lookup returns the close price of some entry carrying the
looked-up date, whenever one exists. -/
theorem closeAt_mem (d : Nat) :
    ∀ history : List (Nat × ℚ), (∃ p ∈ history, p.1 = d) →
      ∃ p ∈ history, p.1 = d ∧ p.2 = closeAt d history
  | [], h => by simp at h
  | p :: rest, h => by
    by_cases hp : p.1 = d
    · exact ⟨p, List.mem_cons_self p rest, hp, by simp [closeAt, hp]⟩
    · obtain ⟨q, hq, hqd⟩ := h
      rcases List.mem_cons.mp hq with rfl | hq'
      · exact absurd hqd hp
      · obtain ⟨q', hq', hd', hc'⟩ := closeAt_mem d rest ⟨q, hq', hqd⟩
        exact ⟨q', List.mem_cons_of_mem p hq', hd', by simpa [closeAt, hp] using hc'⟩

/-- The date at any valid position is carried by some series entry. -/
theorem dateAt_mem :
    ∀ (history : List (Nat × ℚ)) (i : Nat), i < history.length →
      ∃ p ∈ history, p.1 = dateAt history i
  | [], i, h => by simp at h
  | p :: rest, 0, _ => ⟨p, List.mem_cons_self p rest, rfl⟩
  | p :: rest, i + 1, h => by
    obtain ⟨q, hq, hd⟩ := dateAt_mem rest i (by simpa using Nat.lt_of_succ_lt_succ h)
    exact ⟨q, List.mem_cons_of_mem p hq, hd⟩

/-- Characterization of the records produced for one event: the
ex-date is found at a positive position, and the record is the one for
some holding period whose sell position fits in the series. -/
theorem mem_processEvent (history : List (Nat × ℚ)) (maxDays : Nat) (ev : Nat × ℚ)
    (r : TradeRecord) :
    r ∈ processEvent history maxDays ev ↔
      ∃ exIdx, get_loc ev.1 history = some exIdx ∧ 1 ≤ exIdx ∧
        ∃ n, n < min maxDays (history.length - exIdx) ∧
          r = mkRecord history ev.1 ev.2 (dateAt history (exIdx - 1))
            (closeAt (dateAt history (exIdx - 1)) history) exIdx n := by
  cases hloc : get_loc ev.1 history with
  | none => simp [processEvent, hloc]
  | some exIdx =>
    by_cases h1 : exIdx < 1
    · have hz : exIdx = 0 := by omega
      subst hz
      simp [processEvent, hloc]
    · rw [processEvent_eq history maxDays ev exIdx hloc (by omega)]
      simp only [List.mem_map, List.mem_range'_1, hloc, Option.some.injEq]
      constructor
      · rintro ⟨n, ⟨-, hn⟩, rfl⟩
        exact ⟨exIdx, rfl, by omega, n, by omega, rfl⟩
      · rintro ⟨e, rfl, -, n, hn, rfl⟩
        exact ⟨n, ⟨by omega, by omega⟩, rfl⟩

/-- A record is produced by the loop over all events exactly when some
event of the series produces it. -/
theorem mem_processAll (history : List (Nat × ℚ)) (maxDays : Nat) (r : TradeRecord) :
    ∀ dividends : List (Nat × ℚ),
      r ∈ processAll history maxDays dividends ↔
        ∃ ev ∈ dividends, r ∈ processEvent history maxDays ev
  | [] => by simp [processAll]
  | ev :: rest => by
    simp [processAll, List.mem_append, mem_processAll history maxDays r rest]

/-- A record is emitted by the engine exactly when some dividend event
produces it. -/
theorem mem_calculate (history dividends : List (Nat × ℚ)) (maxDays : Nat)
    (r : TradeRecord) :
    r ∈ calculate_scalping_strategy history dividends maxDays ↔
      ∃ ev ∈ dividends, r ∈ processEvent history maxDays ev := by
  rw [calculate_eq_processAll, mem_processAll]

/-- Every record carries the ex-date of the event that produced it. -/
theorem processEvent_exDate (history : List (Nat × ℚ)) (maxDays : Nat) (ev : Nat × ℚ)
    (r : TradeRecord) (hr : r ∈ processEvent history maxDays ev) : r.exDate = ev.1 := by
  rw [mem_processEvent] at hr
  obtain ⟨i, -, -, n, -, rfl⟩ := hr
  rfl

/-- One event yields at most `maxDays` records. -/
theorem processEvent_length_le (history : List (Nat × ℚ)) (maxDays : Nat) (ev : Nat × ℚ) :
    (processEvent history maxDays ev).length ≤ maxDays := by
  cases hloc : get_loc ev.1 history with
  | none => simp [processEvent, hloc]
  | some exIdx =>
    by_cases h1 : exIdx < 1
    · simp [processEvent, hloc, h1]
    · rw [processEvent_eq history maxDays ev exIdx hloc (by omega)]
      simp only [List.length_map, List.length_range']
      omega

/-- The loop over all events yields at most `maxDays` records per
event. -/
theorem processAll_length_le (history : List (Nat × ℚ)) (maxDays : Nat) :
    ∀ dividends : List (Nat × ℚ),
      (processAll history maxDays dividends).length ≤ dividends.length * maxDays
  | [] => by simp [processAll]
  | ev :: rest => by
    have h1 := processEvent_length_le history maxDays ev
    have h2 := processAll_length_le history maxDays rest
    calc (processAll history maxDays (ev :: rest)).length
        = (processEvent history maxDays ev).length +
            (processAll history maxDays rest).length := by
          simp [processAll]
      _ ≤ maxDays + rest.length * maxDays := Nat.add_le_add h1 h2
      _ = (ev :: rest).length * maxDays := by simp [List.length_cons]; ring

/-- The loop over all events is the concatenation of the per-event
blocks, in series order. -/
theorem processAll_eq_flatten (history : List (Nat × ℚ)) (maxDays : Nat) :
    ∀ dividends : List (Nat × ℚ),
      processAll history maxDays dividends =
        (dividends.map (processEvent history maxDays)).flatten
  | [] => rfl
  | ev :: rest => by
    simp [processAll, processAll_eq_flatten history maxDays rest]

/-- For an aligned event, the holding periods of the emitted records
are, in order, 1 through the number of sell sessions that fit. -/
theorem processEvent_daysHeld_map (history : List (Nat × ℚ)) (maxDays : Nat)
    (ev : Nat × ℚ) (exIdx : Nat) (hloc : get_loc ev.1 history = some exIdx)
    (h1 : 1 ≤ exIdx) :
    (processEvent history maxDays ev).map (fun r => r.daysHeld) =
      (List.range (min maxDays (history.length - exIdx))).map (fun n => n + 1) := by
  rw [processEvent_eq history maxDays ev exIdx hloc h1, List.range_eq_range',
    List.map_map]
  rfl

/-- Within any one event's block the holding periods strictly
increase. -/
theorem processEvent_daysHeld_pairwise (history : List (Nat × ℚ)) (maxDays : Nat)
    (ev : Nat × ℚ) :
    ((processEvent history maxDays ev).map (fun r => r.daysHeld)).Pairwise (· < ·) := by
  cases hloc : get_loc ev.1 history with
  | none => simp [processEvent, hloc]
  | some exIdx =>
    by_cases h1 : exIdx < 1
    · simp [processEvent, hloc, h1]
    · rw [processEvent_daysHeld_map history maxDays ev exIdx hloc (by omega),
        List.pairwise_map]
      exact (List.pairwise_lt_range _).imp (fun h => by omega)

/-- An event whose ex-date is absent from the index, or found at the
very first position, is skipped (whatever its amount). -/
theorem processEvent_skip (history : List (Nat × ℚ)) (maxDays : Nat) (dte : Nat)
    (amt : ℚ)
    (hskip : (∀ p ∈ history, p.1 ≠ dte) ∨ (history ≠ [] ∧ dateAt history 0 = dte)) :
    processEvent history maxDays (dte, amt) = [] := by
  rcases hskip with hmiss | ⟨hne, hfirst⟩
  · have hloc : get_loc dte history = none := (get_loc_none_iff dte history).mpr hmiss
    simp [processEvent, hloc]
  · cases history with
    | nil => exact absurd rfl hne
    | cons p t =>
      have hp : p.1 = dte := hfirst
      simp [processEvent, get_loc, hp]

/-- Dropping timezone annotations leaves an already-naive series
unchanged. -/
theorem setNaive_eq_self (s : List (TZDate × ℚ)) (hs : ∀ p ∈ s, p.1.tz = none) :
    setNaive s = s := by
  induction s with
  | nil => rfl
  | cons p t ih =>
    have hp : p.1.tz = none := hs p (List.mem_cons_self p t)
    have ht := ih (fun q hq => hs q (List.mem_cons_of_mem p hq))
    simp only [setNaive, List.map_cons] at ht ⊢
    rw [ht]
    obtain ⟨⟨day, tz⟩, price⟩ := p
    simp only at hp
    rw [hp]

/-- The concrete scenario of spec §8 evaluates to its two expected
records (both given as positional `mkRecord` instances). -/
theorem scenario_eval : calculate_scalping_strategy exHist exDivs 2 = [exRec1, exRec2] := rfl

/-- The numeric content of the first scenario record: bought at 102 the
session before the ex-date, sold at 101 on the ex-date, net gain 0%. -/
theorem exRec1_eval :
    exRec1.exDate = 3 ∧ exRec1.dividend = 1 ∧ exRec1.buyDate = 2 ∧
    exRec1.buyPrice = 102 ∧ exRec1.daysHeld = 1 ∧ exRec1.sellDate = 3 ∧
    exRec1.sellPrice = 101 ∧ exRec1.netGainPct = 0 ∧ exRec1.divGainPct = 50 / 51 := by
  refine ⟨rfl, rfl, rfl, rfl, rfl, rfl, rfl, ?_, ?_⟩ <;> norm_num [exRec1, mkRecord, exHist, dateAt, closeAt]

/-- The numeric content of the second scenario record: sold at 105 one
session after the ex-date, net gain (105+1-102)/102*100 = 200/51 %. -/
theorem exRec2_eval :
    exRec2.daysHeld = 2 ∧ exRec2.sellDate = 4 ∧ exRec2.sellPrice = 105 ∧
    exRec2.netGainPct = 200 / 51 ∧ exRec2.divGainPct = 50 / 51 := by
  refine ⟨rfl, rfl, rfl, ?_, ?_⟩ <;> norm_num [exRec2, mkRecord, exHist, dateAt, closeAt]

/-- Claim C1: for every emitted TradeRecord with positive buy price,
the net-gain percentage is exactly ((SellPrice + Dividend - BuyPrice) /
BuyPrice) * 100 and the dividend-gain percentage is exactly (Dividend /
BuyPrice) * 100, computed from the record's own fields with no
rounding. -/
theorem C1_gain_formulas (history dividends : List (Nat × ℚ)) (maxDays : Nat)
    (r : TradeRecord) (hr : r ∈ calculate_scalping_strategy history dividends maxDays)
    (hb : 0 < r.buyPrice) :
    r.netGainPct = ((r.sellPrice + r.dividend - r.buyPrice) / r.buyPrice) * 100 ∧
    r.divGainPct = (r.dividend / r.buyPrice) * 100 := by
  rw [mem_calculate] at hr
  obtain ⟨ev, -, hr⟩ := hr
  rw [mem_processEvent] at hr
  obtain ⟨i, -, -, n, -, rfl⟩ := hr
  exact ⟨rfl, rfl⟩

/-- Witness for C1 at the concrete scenario's first record. -/
theorem C1_gain_formulas_witness :
    (exRec1 ∈ calculate_scalping_strategy exHist exDivs 2 ∧ 0 < exRec1.buyPrice) ∧
    (exRec1.netGainPct =
        ((exRec1.sellPrice + exRec1.dividend - exRec1.buyPrice) / exRec1.buyPrice) * 100 ∧
      exRec1.divGainPct = (exRec1.dividend / exRec1.buyPrice) * 100) :=
  ⟨⟨List.Mem.head _, by decide⟩,
    C1_gain_formulas exHist exDivs 2 exRec1 (List.Mem.head _) (by decide)⟩

/-- Claim C2: an event whose ex-date is absent from the price index, or
is the very first session (no preceding session), contributes zero
records: its own block is empty and no emitted record carries its
ex-date — with no forward shift and, the functions being total, no
exception. -/
theorem C2_misaligned_event_skipped (history dividends : List (Nat × ℚ))
    (maxDays : Nat) (dte : Nat) (amt : ℚ)
    (hskip : (∀ p ∈ history, p.1 ≠ dte) ∨ (history ≠ [] ∧ dateAt history 0 = dte)) :
    processEvent history maxDays (dte, amt) = [] ∧
    (calculate_scalping_strategy history dividends maxDays).filter
      (fun r => decide (r.exDate = dte)) = [] := by
  refine ⟨processEvent_skip history maxDays dte amt hskip, ?_⟩
  rw [List.filter_eq_nil_iff]
  intro r hrmem
  simp only [decide_eq_true_eq]
  intro hEx
  rw [mem_calculate] at hrmem
  obtain ⟨ev, -, hrev⟩ := hrmem
  have hx : ev.1 = dte := (processEvent_exDate history maxDays ev r hrev) ▸ hEx
  rw [← Prod.mk.eta (p := ev), hx, processEvent_skip history maxDays dte ev.2 hskip]
    at hrev
  exact List.not_mem_nil r hrev

/-- Witness for C2: an event dated at the very first session of the
scenario's price series. -/
theorem C2_misaligned_event_skipped_witness :
    ((∀ p ∈ exHist, p.1 ≠ 1) ∨ (exHist ≠ [] ∧ dateAt exHist 0 = 1)) ∧
    (processEvent exHist 3 (1, 5) = [] ∧
      (calculate_scalping_strategy exHist exDivs 3).filter
        (fun r => decide (r.exDate = 1)) = []) :=
  ⟨Or.inr ⟨by decide, rfl⟩,
    C2_misaligned_event_skipped exHist exDivs 3 1 5 (Or.inr ⟨by decide, rfl⟩)⟩

/-- Claim C3: every emitted record has holding period at least 1; its
sell date is the session at positional index (position of the ex-date)
+ (holding period - 1); in particular holding period 1 means the sale
occurs on the ex-dividend session itself. -/
theorem C3_holding_period_indexing (history dividends : List (Nat × ℚ))
    (maxDays : Nat) (r : TradeRecord)
    (hr : r ∈ calculate_scalping_strategy history dividends maxDays) :
    1 ≤ r.daysHeld ∧
    ∃ i, get_loc r.exDate history = some i ∧
      i + (r.daysHeld - 1) < history.length ∧
      r.sellDate = dateAt history (i + (r.daysHeld - 1)) ∧
      (r.daysHeld = 1 → r.sellDate = r.exDate) := by
  rw [mem_calculate] at hr
  obtain ⟨ev, -, hr⟩ := hr
  rw [mem_processEvent] at hr
  obtain ⟨i, hloc, h1, n, hn, rfl⟩ := hr
  refine ⟨Nat.succ_le_succ (Nat.zero_le n), i, hloc, ?_, rfl, ?_⟩
  · show i + (n + 1 - 1) < history.length
    have hi := get_loc_lt_length ev.1 history i hloc
    omega
  · intro hd1
    have hn0 : n + 1 = 1 := hd1
    have : n = 0 := by omega
    subst this
    exact get_loc_date ev.1 history i hloc

/-- Witness for C3 at the concrete scenario's first record, whose
holding period is 1 and whose sale occurs on the ex-date. -/
theorem C3_holding_period_indexing_witness :
    exRec1 ∈ calculate_scalping_strategy exHist exDivs 2 ∧
    (1 ≤ exRec1.daysHeld ∧
      ∃ i, get_loc exRec1.exDate exHist = some i ∧
        i + (exRec1.daysHeld - 1) < exHist.length ∧
        exRec1.sellDate = dateAt exHist (i + (exRec1.daysHeld - 1)) ∧
        (exRec1.daysHeld = 1 → exRec1.sellDate = exRec1.exDate)) :=
  ⟨List.Mem.head _,
    C3_holding_period_indexing exHist exDivs 2 exRec1 (List.Mem.head _)⟩

/-- Claim C4: when either series is missing (failed fetch) or empty,
the engine returns the empty record list; the embedding is a total
function, so no exception reaches the caller. -/
theorem C4_empty_or_missing_inputs (history? dividends? : Option (List (TZDate × ℚ)))
    (maxDays : Nat)
    (hcase : history? = none ∨ history? = some [] ∨
      dividends? = none ∨ dividends? = some []) :
    (runEngine history? dividends? maxDays).2.2 = [] := by
  rcases hcase with rfl | rfl | rfl | rfl
  · cases dividends? <;> rfl
  · cases dividends? with
    | none => rfl
    | some d => simp [runEngine]
  · cases history? <;> rfl
  · cases history? with
    | none => rfl
    | some h => simp [runEngine]

/-- Witness for C4 at a missing price series. -/
theorem C4_empty_or_missing_inputs_witness :
    ((none : Option (List (TZDate × ℚ))) = none ∨
      (none : Option (List (TZDate × ℚ))) = some [] ∨
      some naiveDivs = none ∨ some naiveDivs = some []) ∧
    (runEngine none (some naiveDivs) 5).2.2 = [] :=
  ⟨Or.inl rfl, C4_empty_or_missing_inputs none (some naiveDivs) 5 (Or.inl rfl)⟩

/-- Claim C5: every emitted record's buy date is the session strictly
preceding the ex-date by position, and both its buy price and sell
price are close prices of actual price-series entries (never
interpolated). -/
theorem C5_buy_session_and_prices (history dividends : List (Nat × ℚ))
    (maxDays : Nat) (r : TradeRecord)
    (hr : r ∈ calculate_scalping_strategy history dividends maxDays) :
    ∃ i, get_loc r.exDate history = some i ∧ 1 ≤ i ∧
      r.buyDate = dateAt history (i - 1) ∧
      (∃ p ∈ history, p.1 = r.buyDate ∧ p.2 = r.buyPrice) ∧
      (∃ q ∈ history, q.1 = r.sellDate ∧ q.2 = r.sellPrice) := by
  rw [mem_calculate] at hr
  obtain ⟨ev, -, hr⟩ := hr
  rw [mem_processEvent] at hr
  obtain ⟨i, hloc, h1, n, hn, rfl⟩ := hr
  have hi := get_loc_lt_length ev.1 history i hloc
  refine ⟨i, hloc, h1, rfl, ?_, ?_⟩
  · obtain ⟨p, hp, hpd⟩ := dateAt_mem history (i - 1) (by omega)
    obtain ⟨q, hq, hqd, hqc⟩ := closeAt_mem (dateAt history (i - 1)) history ⟨p, hp, hpd⟩
    exact ⟨q, hq, hqd, hqc⟩
  · obtain ⟨p, hp, hpd⟩ := dateAt_mem history (i + n) (by omega)
    obtain ⟨q, hq, hqd, hqc⟩ := closeAt_mem (dateAt history (i + n)) history ⟨p, hp, hpd⟩
    exact ⟨q, hq, hqd, hqc⟩

/-- Witness for C5 at the concrete scenario's second record. -/
theorem C5_buy_session_and_prices_witness :
    exRec2 ∈ calculate_scalping_strategy exHist exDivs 2 ∧
    (∃ i, get_loc exRec2.exDate exHist = some i ∧ 1 ≤ i ∧
      exRec2.buyDate = dateAt exHist (i - 1) ∧
      (∃ p ∈ exHist, p.1 = exRec2.buyDate ∧ p.2 = exRec2.buyPrice) ∧
      (∃ q ∈ exHist, q.1 = exRec2.sellDate ∧ q.2 = exRec2.sellPrice)) :=
  ⟨List.Mem.tail _ (List.Mem.head _),
    C5_buy_session_and_prices exHist exDivs 2 exRec2
      (List.Mem.tail _ (List.Mem.head _))⟩

/-- Claim C6: for an event passing both alignment checks, the emitted
holding periods are exactly the contiguous range 1..k where k is the
number of sell sessions that fit (k = min maxDays (length - position)),
so k ≤ maxDays, the values strictly increase, and a too-short series
truncates the block while keeping the earlier holding periods. -/
theorem C6_contiguous_holding_periods (history : List (Nat × ℚ)) (maxDays : Nat)
    (ev : Nat × ℚ) (exIdx : Nat) (hloc : get_loc ev.1 history = some exIdx)
    (h1 : 1 ≤ exIdx) :
    ∃ k, k = min maxDays (history.length - exIdx) ∧ k ≤ maxDays ∧
      (processEvent history maxDays ev).map (fun r => r.daysHeld) =
        (List.range k).map (fun n => n + 1) ∧
      ((processEvent history maxDays ev).map (fun r => r.daysHeld)).Pairwise (· < ·) :=
  ⟨min maxDays (history.length - exIdx), rfl, Nat.min_le_left _ _,
    processEvent_daysHeld_map history maxDays ev exIdx hloc h1,
    processEvent_daysHeld_pairwise history maxDays ev⟩

/-- Witness for C6 at the scenario event: with maxDays = 14 but only
two sessions from the ex-date on, the block is truncated to k = 2. -/
theorem C6_contiguous_holding_periods_witness :
    (get_loc (3, (1 : ℚ)).1 exHist = some 2 ∧ 1 ≤ 2) ∧
    (∃ k, k = min 14 (exHist.length - 2) ∧ k ≤ 14 ∧
      (processEvent exHist 14 (3, 1)).map (fun r => r.daysHeld) =
        (List.range k).map (fun n => n + 1) ∧
      ((processEvent exHist 14 (3, 1)).map (fun r => r.daysHeld)).Pairwise (· < ·)) :=
  ⟨⟨rfl, by decide⟩,
    C6_contiguous_holding_periods exHist 14 (3, 1) 2 rfl (by decide)⟩

/-- Claim C7: the output has at most (number of events) * maxDays rows;
it is exactly the concatenation of the per-event blocks in dividend
series order, every record of a block carries that event's ex-date, and
within a block the holding periods strictly increase. -/
theorem C7_row_bound_and_ordering (history dividends : List (Nat × ℚ)) (maxDays : Nat) :
    (calculate_scalping_strategy history dividends maxDays).length ≤
      dividends.length * maxDays ∧
    calculate_scalping_strategy history dividends maxDays =
      (dividends.map (processEvent history maxDays)).flatten ∧
    (∀ ev ∈ dividends, ∀ r ∈ processEvent history maxDays ev, r.exDate = ev.1) ∧
    (∀ ev ∈ dividends,
      ((processEvent history maxDays ev).map (fun r => r.daysHeld)).Pairwise (· < ·)) := by
  refine ⟨?_, ?_, ?_, ?_⟩
  · rw [calculate_eq_processAll]
    exact processAll_length_le history maxDays dividends
  · rw [calculate_eq_processAll]
    exact processAll_eq_flatten history maxDays dividends
  · intro ev _ r hr
    exact processEvent_exDate history maxDays ev r hr
  · intro ev _
    exact processEvent_daysHeld_pairwise history maxDays ev

/-- Claim C8: the engine is deterministic — two invocations on equal
price and dividend series return equal final states and equal record
sequences (same content and order). -/
theorem C8_deterministic (h1 h2 d1 d2 : Option (List (TZDate × ℚ))) (maxDays : Nat)
    (hh : h1 = h2) (hd : d1 = d2) :
    runEngine h1 d1 maxDays = runEngine h2 d2 maxDays := by
  rw [hh, hd]

/-- Witness for C8 at the timezone-aware concrete series. -/
theorem C8_deterministic_witness :
    (some tzHist = some tzHist ∧ some tzDivs = some tzDivs) ∧
    runEngine (some tzHist) (some tzDivs) 14 =
      runEngine (some tzHist) (some tzDivs) 14 :=
  ⟨⟨rfl, rfl⟩, C8_deterministic (some tzHist) (some tzHist) (some tzDivs)
    (some tzDivs) 14 rfl rfl⟩

/-- Counterexample to claim C9 as stated: on timezone-aware input
series the run rebinds both indices to timezone-naive versions
(`tz_localize(None)` at `strategy.py` lines 37-38), so after the run
neither series equals its input state. -/
theorem C9_counterexample :
    ¬ ((runEngine (some tzHist) (some tzDivs) 14).1 = some tzHist ∧
       (runEngine (some tzHist) (some tzDivs) 14).2.1 = some tzDivs) := by
  decide

/-- Claim C9 as amended: the only modification the engine makes to its
series is dropping timezone annotations from their indices; on series
whose dates are already timezone-naive (the spec's own data-model
normal form) both series are unchanged after the run, and the record
list is a pure function of the two series. -/
theorem C9_naive_series_unchanged (history dividends : List (TZDate × ℚ))
    (maxDays : Nat) (hh : ∀ p ∈ history, p.1.tz = none)
    (hd : ∀ p ∈ dividends, p.1.tz = none) :
    (runEngine (some history) (some dividends) maxDays).1 = some history ∧
    (runEngine (some history) (some dividends) maxDays).2.1 = some dividends ∧
    (runEngine (some history) (some dividends) maxDays).2.2 =
      calculate_scalping_strategy (toNaive history) (toNaive dividends) maxDays := by
  have hsh := setNaive_eq_self history hh
  have hsd := setNaive_eq_self dividends hd
  by_cases hemp : (history.isEmpty || dividends.isEmpty) = true
  · refine ⟨?_, ?_, ?_⟩ <;> simp [runEngine, hemp]
    rcases Bool.or_eq_true_iff.mp hemp with h | h
    · rw [List.isEmpty_iff.mp h]
      simp [calculate_scalping_strategy, toNaive]
    · rw [List.isEmpty_iff.mp h]
      simp [calculate_scalping_strategy, toNaive]
  · refine ⟨?_, ?_, ?_⟩ <;> simp [runEngine, hemp, hsh, hsd]

/-- Witness for the amended C9 at concrete timezone-naive series. -/
theorem C9_naive_series_unchanged_witness :
    ((∀ p ∈ naiveHist, p.1.tz = none) ∧ (∀ p ∈ naiveDivs, p.1.tz = none)) ∧
    ((runEngine (some naiveHist) (some naiveDivs) 14).1 = some naiveHist ∧
      (runEngine (some naiveHist) (some naiveDivs) 14).2.1 = some naiveDivs ∧
      (runEngine (some naiveHist) (some naiveDivs) 14).2.2 =
        calculate_scalping_strategy (toNaive naiveHist) (toNaive naiveDivs) 14) :=
  ⟨⟨by decide, by decide⟩,
    C9_naive_series_unchanged naiveHist naiveDivs 14 (by decide) (by decide)⟩

/-- Claim C10: all records emitted for one dividend event share the
same ex-date, dividend amount, buy date, buy price and dividend-gain
percentage; only the holding period, sell date, sell price and net gain
vary within the event's block. -/
theorem C10_per_event_constant_fields (history : List (Nat × ℚ)) (maxDays : Nat)
    (ev : Nat × ℚ) (r s : TradeRecord)
    (hr : r ∈ processEvent history maxDays ev)
    (hs : s ∈ processEvent history maxDays ev) :
    r.exDate = s.exDate ∧ r.dividend = s.dividend ∧ r.buyDate = s.buyDate ∧
    r.buyPrice = s.buyPrice ∧ r.divGainPct = s.divGainPct := by
  rw [mem_processEvent] at hr hs
  obtain ⟨i, hloci, -, n, -, rfl⟩ := hr
  obtain ⟨j, hlocj, -, m, -, rfl⟩ := hs
  rw [hloci] at hlocj
  obtain rfl : i = j := Option.some.inj hlocj
  exact ⟨rfl, rfl, rfl, rfl, rfl⟩

/-- Witness for C10 at the two records of the scenario event. -/
theorem C10_per_event_constant_fields_witness :
    (exRec1 ∈ processEvent exHist 2 (3, 1) ∧ exRec2 ∈ processEvent exHist 2 (3, 1)) ∧
    (exRec1.exDate = exRec2.exDate ∧ exRec1.dividend = exRec2.dividend ∧
      exRec1.buyDate = exRec2.buyDate ∧ exRec1.buyPrice = exRec2.buyPrice ∧
      exRec1.divGainPct = exRec2.divGainPct) :=
  ⟨⟨List.Mem.head _, List.Mem.tail _ (List.Mem.head _)⟩,
    C10_per_event_constant_fields exHist 2 (3, 1) exRec1 exRec2
      (List.Mem.head _) (List.Mem.tail _ (List.Mem.head _))⟩

end DividendStrategy
